import Mathlib

/-!
# Verification of the Euclidean-algorithm engine of the Linal_Lab repository

Shallow embedding of the generalized Euclidean engine:

* `hard_level.py`: `RingElement`, `_gcd_two_integers`, `_polynomial_division`,
  `_gcd_two_polynomials`, `gcd_ring_elements`.  Polynomial coefficients there are
  Python floats with an epsilon-tolerance zero test (`1e-10`); we embed them as
  exact rationals with the same epsilon tests, so every comparison the code makes
  is mirrored literally.
* `normal_level.py`: the extended-GCD elimination loop of `gcd_F11`/`inverse_F13`
  over GF(11)/GF(13), embedded as coefficient lists over `ZMod 11`/`ZMod 13`
  (ascending order, trailing zeros stripped, the zero polynomial is `[]`), with a
  bridge `toPoly` into Mathlib's `Polynomial` for the algebraic statements.

Python's mutable-list semantics matter for two frame claims, so constructor and
engine entry points additionally come in `..._frame` versions that return, next
to the computed value, the post-call contents of the list objects the caller
passed in (state-passing rendering of in-place mutation).
-/

namespace LinalLab

open Polynomial

/-! ## Generic coefficient-list polynomials and the bridge to `Polynomial` -/

/-- The polynomial `l[0] + l[1]*x + ... + l[n]*x^n` denoted by a coefficient
list, as a Mathlib polynomial (Horner form). -/
noncomputable def toPoly {R : Type} [CommRing R] : List R → Polynomial R
  | [] => 0
  | c :: rest => Polynomial.C c + Polynomial.X * toPoly rest

@[simp] theorem toPoly_nil {R : Type} [CommRing R] : toPoly ([] : List R) = 0 := rfl

@[simp] theorem toPoly_cons {R : Type} [CommRing R] (c : R) (l : List R) :
    toPoly (c :: l) = Polynomial.C c + Polynomial.X * toPoly l := rfl

/-- Coefficient-wise subtraction of coefficient lists, padding the shorter list
with zeros (the coefficient arithmetic the `galois` library performs). -/
def zipPadSub {R : Type} [CommRing R] : List R → List R → List R
  | as, [] => as
  | [], b :: bs => -b :: zipPadSub [] bs
  | a :: as, b :: bs => (a - b) :: zipPadSub as bs

/-- Strip all trailing zero coefficients; the zero polynomial becomes `[]`
(the normalization the `galois` `Poly` constructor performs, exact equality). -/
def trimZ {R : Type} [CommRing R] [DecidableEq R] : List R → List R
  | [] => []
  | a :: as =>
    match trimZ as with
    | [] => if a = 0 then [] else [a]
    | bs => a :: bs

/-- Multiplication by `x^k` (the `Poly([1] + [0]*diff)` factor in the source),
keeping `[]` for the zero polynomial. -/
def shiftP {R : Type} [CommRing R] (k : ℕ) (l : List R) : List R :=
  if l.isEmpty then [] else List.replicate k 0 ++ l

/-- Subtraction of normalized coefficient lists, renormalized. -/
def subZ {R : Type} [CommRing R] [DecidableEq R] (a b : List R) : List R :=
  trimZ (zipPadSub a b)

theorem toPoly_zipPadSub {R : Type} [CommRing R] (a b : List R) :
    toPoly (zipPadSub a b) = toPoly a - toPoly b := by
  induction b generalizing a with
  | nil => simp [zipPadSub]
  | cons b bs ih =>
    cases a with
    | nil =>
      show toPoly (-b :: zipPadSub [] bs) = _
      simp [ih]; ring
    | cons a as =>
      show toPoly ((a - b) :: zipPadSub as bs) = _
      simp [ih]; ring

theorem toPoly_eq_zero_of_trimZ_nil {R : Type} [CommRing R] [DecidableEq R]
    (l : List R) (h : trimZ l = []) : toPoly l = 0 := by
  induction l with
  | nil => rfl
  | cons a as ih =>
    rw [trimZ] at h
    rcases has : trimZ as with _ | ⟨b, bs⟩
    · rw [has] at h
      by_cases ha : a = 0
      · simp [ha, ih has]
      · simp [ha] at h
    · rw [has] at h; simp at h

theorem toPoly_trimZ {R : Type} [CommRing R] [DecidableEq R] (l : List R) :
    toPoly (trimZ l) = toPoly l := by
  induction l with
  | nil => rfl
  | cons a as ih =>
    rw [trimZ]
    rcases has : trimZ as with _ | ⟨b, bs⟩
    · have h0 : toPoly as = 0 := toPoly_eq_zero_of_trimZ_nil as has
      by_cases ha : a = 0 <;> simp [ha, h0]
    · rw [has] at ih
      simp [← ih]

theorem toPoly_subZ {R : Type} [CommRing R] [DecidableEq R] (a b : List R) :
    toPoly (subZ a b) = toPoly a - toPoly b := by
  rw [subZ, toPoly_trimZ, toPoly_zipPadSub]

theorem toPoly_replicate_append {R : Type} [CommRing R] (k : ℕ) (l : List R) :
    toPoly (List.replicate k 0 ++ l) = Polynomial.X ^ k * toPoly l := by
  induction k with
  | zero => simp
  | succ k ih => simp [List.replicate_succ, ih]; ring

theorem toPoly_shiftP {R : Type} [CommRing R] (k : ℕ) (l : List R) :
    toPoly (shiftP k l) = Polynomial.X ^ k * toPoly l := by
  rw [shiftP]
  cases l with
  | nil => simp
  | cons a as => simp [toPoly_replicate_append]

theorem toPoly_map_mul {R : Type} [CommRing R] (d : R) (l : List R) :
    toPoly (l.map fun c => c * d) = toPoly l * Polynomial.C d := by
  induction l with
  | nil => simp
  | cons a as ih => simp [ih]; ring

/-! ## `hard_level.py`: the float-coefficient engine, embedded over `ℚ`

Every epsilon comparison (`abs(c) < 1e-10`, `abs(a[-1]) > 1e-10`) of the source
is mirrored literally with `EPS = 1/10^10`. -/

/-- The tolerance `1e-10` used by `hard_level.py` for all zero tests. -/
def EPS : ℚ := 1 / 10 ^ 10

/-- `all(abs(c) < 1e-10 for c in l)`: the epsilon zero test of the source. -/
def isEpsZero (l : List ℚ) : Bool := l.all fun c => |c| < EPS

/-- Helper for `trimF`: drop leading elements of magnitude below `EPS` while
more than one element remains (the source pops from the other end; `trimF`
reverses first). -/
def dropSmall : List ℚ → List ℚ
  | [] => []
  | c :: rest => if rest ≠ [] ∧ |c| < EPS then dropSmall rest else c :: rest

/-- `while len(l) > 1 and abs(l[-1]) < 1e-10: l.pop()` — the trailing-zero
trimming of `RingElement.__init__`, `_polynomial_division` and
`_gcd_two_polynomials`. -/
def trimF (l : List ℚ) : List ℚ := (dropSmall l.reverse).reverse

/-- The two error kinds the engine raises (`ValueError` in the source:
division by the zero element, and mixed integer/polynomial inputs). -/
inductive EngineError where
  | divisionByZero
  | typeMismatch
deriving DecidableEq, Repr

/-- The `while len(dividend) >= len(divisor)` loop of `_polynomial_division`,
lines 71–82.  Each iteration removes the last dividend coefficient, so the
initial dividend length bounds the iteration count and serves as fuel; the
quotient is accumulated by `append` exactly as in the source and reversed by
the caller. -/
def divLoop : ℕ → List ℚ → List ℚ → List ℚ → List ℚ × List ℚ
  | 0, dividend, _, quotient => (quotient, dividend)
  | fuel + 1, dividend, divisor, quotient =>
    if dividend.length < divisor.length then (quotient, dividend)
    else if isEpsZero dividend then (quotient, dividend)
    else
      let coeff := dividend.getLastD 0 / divisor.getLastD 0
      let degree_diff := dividend.length - divisor.length
      let dividend2 := dividend.take degree_diff ++
        List.zipWith (fun d v => d - coeff * v) (dividend.drop degree_diff) divisor
      divLoop fuel dividend2.dropLast divisor (quotient ++ [coeff])

/-- `_polynomial_division(dividend, divisor)` of `hard_level.py`, lines 52–89:
trim both operands, fail on an (epsilon-)zero divisor, run the long-division
loop, reverse the quotient, and replace empty results by `[0]`. -/
def polynomial_division (dividend divisor : List ℚ) :
    Except EngineError (List ℚ × List ℚ) :=
  let dividend := trimF dividend
  let divisor := trimF divisor
  if isEpsZero divisor then .error .divisionByZero
  else
    let qr := divLoop dividend.length dividend divisor []
    let quotient := qr.1.reverse
    let remainder := qr.2
    .ok ((if quotient.isEmpty then [0] else quotient),
         (if remainder.isEmpty then [0] else remainder))

/-- The `while not all(abs(c) < 1e-10 for c in b)` loop of
`_gcd_two_polynomials`, lines 105–109: `a, b = b, remainder`, re-trimming `b`
after each step.  Each iteration either strictly shortens `b` or produces an
epsilon-zero `b`, so `b.length + 1` fuel always suffices; a division error
would propagate (the loop guard makes that impossible, see
`gcdLoop_ne_error`). -/
def gcdLoop : ℕ → List ℚ → List ℚ → Except EngineError (List ℚ)
  | 0, a, _ => .ok a
  | fuel + 1, a, b =>
    if isEpsZero b then .ok a
    else
      match polynomial_division a b with
      | .error e => .error e
      | .ok qr => gcdLoop fuel b (trimF qr.2)

/-- `_gcd_two_polynomials(poly1, poly2)` of `hard_level.py`, lines 92–115:
copy and trim both inputs, run the Euclidean loop, then divide by the leading
coefficient when its magnitude exceeds `1e-10`. -/
def gcd_two_polynomials (poly1 poly2 : List ℚ) : Except EngineError (List ℚ) :=
  let a := trimF poly1
  let b := trimF poly2
  match gcdLoop (b.length + 1) a b with
  | .error e => .error e
  | .ok a =>
    if ¬ a.isEmpty ∧ EPS < |a.getLastD 0| then
      .ok (a.map fun c => c / a.getLastD 0)
    else .ok a

/-- The `while b != 0: a, b = b, a % b` loop of `_gcd_two_integers` on
absolute values; `b` strictly decreases, so `b` itself is enough fuel. -/
def gcdNatFuel : ℕ → ℕ → ℕ → ℕ
  | 0, a, _ => a
  | fuel + 1, a, b => if b = 0 then a else gcdNatFuel fuel b (a % b)

/-- `_gcd_two_integers(a, b)` of `hard_level.py`, lines 38–49.  The loop runs
on `abs(a), abs(b)`; the second value strictly decreases, so `abs(b) + 1` fuel
always suffices (`gcdNatFuel_eq_gcd`). -/
def gcd_two_integers (a b : ℤ) : ℤ :=
  gcdNatFuel b.natAbs.succ a.natAbs b.natAbs

/-- The `data` payload of a `RingElement`: an integer (ring `ℤ`) or a
coefficient list (polynomial ring). -/
inductive RingData where
  | int (n : ℤ)
  | poly (l : List ℚ)
deriving DecidableEq, Repr

/-- `isinstance(data, list)`. -/
def RingData.isPolynomial : RingData → Bool
  | .int _ => false
  | .poly _ => true

/-- `RingElement.__init__` on a list argument, state-passing rendering of the
in-place mutation: `self.data = data` aliases the caller's list and the
trimming loop pops from that same list, so the constructor returns both the
post-call contents of the caller's list object and the element (which stores
that very list). -/
def RingElement_init_poly (data : List ℚ) : List ℚ × RingData :=
  let trimmed := trimF data
  (trimmed, .poly trimmed)

/-- The polynomial branch of the fold in `gcd_ring_elements`, lines 133–135:
`result = _gcd_two_polynomials(result, elements[i].data)` for `i = 1, ...`. -/
def gcdFoldPoly : List ℚ → List RingData → Except EngineError (List ℚ)
  | acc, [] => .ok acc
  | acc, e :: rest =>
    match e with
    | .int _ => .ok acc
    | .poly l =>
      match gcd_two_polynomials acc l with
      | .error err => .error err
      | .ok acc2 => gcdFoldPoly acc2 rest

/-- The integer branch of the fold in `gcd_ring_elements`, lines 138–140:
`result = _gcd_two_integers(result, abs(elements[i].data))`. -/
def gcdFoldInt : ℤ → List RingData → ℤ
  | acc, [] => acc
  | acc, e :: rest =>
    match e with
    | .poly _ => acc
    | .int n => gcdFoldInt (gcd_two_integers acc |n|) rest

/-- `gcd_ring_elements(elements)` of `hard_level.py`, lines 118–141: empty
input yields `RingElement(0)`; mixed integer/polynomial input raises; otherwise
fold the pairwise gcd left to right and wrap the result in `RingElement`
(whose constructor trims polynomial data). -/
def gcd_ring_elements (elements : List RingData) : Except EngineError RingData :=
  match elements with
  | [] => .ok (.int 0)
  | e0 :: rest =>
    if elements.any fun elem => elem.isPolynomial ≠ e0.isPolynomial then
      .error .typeMismatch
    else
      match e0 with
      | .poly l =>
        match gcdFoldPoly l rest with
        | .error err => .error err
        | .ok r => .ok (.poly (trimF r))
      | .int n => .ok (.int (gcdFoldInt |n| rest))

/-! ## `normal_level.py`: the extended-GCD elimination loop over GF(q)

`gcd_F11` (lines 469–495) and `inverse_F13` (lines 517–549) run the identical
loop on two tables `[remainder, coeff_on_f, coeff_on_g]` of `galois` polynomials.
A `galois` polynomial is embedded as its normalized ascending coefficient list
over `ZMod q` (`[]` for the zero polynomial, so `table[0] != field(0)` becomes
`≠ []`); `Poly.degree` of a nonzero polynomial is `length - 1`, `Poly.coeffs[0]`
is the leading coefficient, and `galois` compares field elements by their
integer representatives (`ZMod.val`). -/

/-- One table of the elimination loop: `[remainder, coeff_on_f, coeff_on_g]`. -/
abbrev EGTriple (n : ℕ) := List (ZMod n) × List (ZMod n) × List (ZMod n)

/-- The two tables `table1, table2`. -/
abbrev EGState (n : ℕ) := EGTriple n × EGTriple n

/-- Componentwise subtraction of tables (`table1[i] -= table2[i]`). -/
def tripleSub {n : ℕ} (t u : EGTriple n) : EGTriple n :=
  (subZ t.1 u.1, subZ t.2.1 u.2.1, subZ t.2.2 u.2.2)

/-- Componentwise multiplication of a table by `x^k`
(`table[i] * Poly([1] + [0]*diff)`). -/
def tripleShift {n : ℕ} (k : ℕ) (t : EGTriple n) : EGTriple n :=
  (shiftP k t.1, shiftP k t.2.1, shiftP k t.2.2)

/-- `Poly.degree` of the `galois` library: `length - 1`, and `0` for the zero
polynomial. -/
def degP {n : ℕ} (l : List (ZMod n)) : ℕ := l.length - 1

/-- `Poly.coeffs[0]`: the leading coefficient. -/
def leadP {n : ℕ} (l : List (ZMod n)) : ZMod n := l.getLastD 0

/-- One pass of the `while table1[0] != field(0) and table2[0] != field(0)`
loop body of `gcd_F11`/`inverse_F13` (identity once either remainder is zero,
so iterating freezes at loop exit): compare degrees, subtract the
degree-aligned multiple of the other table, or on equal degrees subtract the
table with the smaller leading-coefficient representative from the other. -/
def egcdStep {n : ℕ} (s : EGState n) : EGState n :=
  if s.1.1 = [] ∨ s.2.1 = [] then s
  else if degP s.2.1 < degP s.1.1 then
    (tripleSub s.1 (tripleShift (degP s.1.1 - degP s.2.1) s.2), s.2)
  else if degP s.1.1 < degP s.2.1 then
    (s.1, tripleSub s.2 (tripleShift (degP s.2.1 - degP s.1.1) s.1))
  else if (leadP s.2.1).val ≤ (leadP s.1.1).val then
    (tripleSub s.1 s.2, s.2)
  else
    (s.1, tripleSub s.2 s.1)

/-- `k` passes of the loop body. -/
def egcdIter {n : ℕ} : ℕ → EGState n → EGState n
  | 0, s => s
  | k + 1, s => egcdIter k (egcdStep s)

/-- `table1 = [func_f, field(1), field(0)]; table2 = [func_g, field(0),
field(1)]` (the `galois` `Poly` constructor normalizes its coefficients). -/
def egcdInit {n : ℕ} (f g : List (ZMod n)) : EGState n :=
  ((trimZ f, [1], []), (trimZ g, [], [1]))

/-- The loop has exited: one of the remainders is the zero polynomial. -/
def egcdTerminated {n : ℕ} (s : EGState n) : Prop := s.1.1 = [] ∨ s.2.1 = []

/-- The table that survives at loop exit (`if table1[0] == field(0)` use
`table2`, else use `table1`). -/
def egcdSurvivor {n : ℕ} (s : EGState n) : EGTriple n :=
  if s.1.1 = [] then s.2 else s.1

/-- The Bézout invariant of one table:
`coeff_on_f * f + coeff_on_g * g == remainder`. -/
def EInv {n : ℕ} (f g : List (ZMod n)) (t : EGTriple n) : Prop :=
  toPoly t.2.1 * toPoly f + toPoly t.2.2 * toPoly g = toPoly t.1

/-- The result of `inverse_F13`: either the inverse polynomial `h`, or the
`'необратим'` (not invertible) answer. -/
inductive InvResult (n : ℕ) where
  | ok (h : List (ZMod n))
  | notInvertible
deriving DecidableEq

/-- The body of `inverse_F13` for arbitrary operands `f`, `g` over GF(13)
(the source fixes `g = x^8 + x^4 + x^3 + 6x + 2` and draws `f` from `N`; the
loop itself is generic): run the elimination loop, inspect the surviving
remainder, and either report non-invertibility (degree `!= 0`) or divide the
coefficient-on-`f` accumulator by the remaining scalar
(`func_h = table[1] // table[0]`, exact division by a degree-0 polynomial).
`fuel` bounds the number of loop passes; the loop freezes at exit, so any
sufficiently large value gives the source's behavior. -/
def inverse_modulo (f g : List (ZMod 13)) (fuel : ℕ) : InvResult 13 :=
  let s := egcdIter fuel (egcdInit f g)
  if s.1.1 = [] then
    if degP s.2.1 ≠ 0 then .notInvertible
    else .ok (s.2.2.1.map fun c => c * (leadP s.2.1)⁻¹)
  else
    if degP s.1.1 ≠ 0 then .notInvertible
    else .ok (s.1.2.1.map fun c => c * (leadP s.1.1)⁻¹)

instance {n : ℕ} (s : EGState n) : Decidable (egcdTerminated s) := by
  unfold egcdTerminated; infer_instance

/-! ## Basic lemmas about the epsilon trimming -/

theorem isEpsZero_dropSmall (l : List ℚ) : isEpsZero (dropSmall l) = isEpsZero l := by
  induction l with
  | nil => rfl
  | cons c rest ih =>
    rw [dropSmall]
    by_cases h : rest ≠ [] ∧ |c| < EPS
    · rw [if_pos h, ih]
      show isEpsZero rest = isEpsZero (c :: rest)
      rw [isEpsZero, isEpsZero, List.all_cons, decide_eq_true h.2, Bool.true_and]
    · rw [if_neg h]

theorem isEpsZero_reverse (l : List ℚ) : isEpsZero l.reverse = isEpsZero l := by
  simp [isEpsZero]

theorem isEpsZero_trimF (l : List ℚ) : isEpsZero (trimF l) = isEpsZero l := by
  rw [trimF, isEpsZero_reverse, isEpsZero_dropSmall, isEpsZero_reverse]

theorem dropSmall_length_le (l : List ℚ) : (dropSmall l).length ≤ l.length := by
  induction l with
  | nil => simp [dropSmall]
  | cons c rest ih =>
    rw [dropSmall]
    by_cases h : rest ≠ [] ∧ |c| < EPS
    · rw [if_pos h]; exact le_trans ih (Nat.le_succ _)
    · rw [if_neg h]

theorem trimF_length_le (l : List ℚ) : (trimF l).length ≤ l.length := by
  rw [trimF, List.length_reverse]
  exact le_trans (dropSmall_length_le _) (by rw [List.length_reverse])

theorem trimF_length_lt (l : List ℚ) (h1 : 1 < l.length)
    (h2 : |l.getLastD 0| < EPS) : (trimF l).length < l.length := by
  rcases hrev : l.reverse with _ | ⟨c, rest⟩
  · have : l = [] := by simpa using congrArg List.reverse hrev
    simp [this] at h1
  · have hc : c = l.getLastD 0 := by
      have := congrArg (fun t => List.getLastD t 0) (congrArg List.reverse hrev)
      simp at this
      rw [← this]
      simp [List.getLastD_eq_getLast?, List.head?_reverse]
    have hrest : rest ≠ [] := by
      intro hr
      have : l = [c] := by simpa [hr] using congrArg List.reverse hrev
      rw [this] at h1; simp at h1
    have hlen : l.length = rest.length + 1 := by
      have := congrArg List.length hrev
      simpa [Nat.add_comm] using this
    rw [trimF, hrev, dropSmall, if_pos ⟨hrest, hc ▸ h2⟩, List.length_reverse]
    calc (dropSmall rest).length ≤ rest.length := dropSmall_length_le rest
    _ < l.length := by omega

/-! ## Division-by-zero behavior (`polynomial_division`, `gcdLoop`) -/

theorem polynomial_division_error_iff (p q : List ℚ) :
    polynomial_division p q = .error .divisionByZero ↔ isEpsZero q = true := by
  rw [polynomial_division]
  by_cases h : isEpsZero (trimF q) = true
  · rw [if_pos h, ← isEpsZero_trimF]
    simp [h]
  · rw [if_neg h, ← isEpsZero_trimF q]
    simp [h]

theorem polynomial_division_ok (p q : List ℚ) (h : isEpsZero q = false) :
    ∃ qr, polynomial_division p q = .ok qr := by
  rw [polynomial_division, if_neg (by rw [isEpsZero_trimF, h]; simp)]
  exact ⟨_, rfl⟩

theorem gcdLoop_ne_error (fuel : ℕ) (a b : List ℚ) (e : EngineError) :
    gcdLoop fuel a b ≠ .error e := by
  induction fuel generalizing a b with
  | zero => simp [gcdLoop]
  | succ fuel ih =>
    rw [gcdLoop]
    by_cases hb : isEpsZero b = true
    · simp [hb]
    · obtain ⟨qr, hqr⟩ := polynomial_division_ok a b (by simpa using hb)
      rw [if_neg (by simp [hb]), hqr]
      exact ih b (trimF qr.2)

theorem gcd_two_polynomials_ok (p q : List ℚ) :
    ∃ r, gcd_two_polynomials p q = .ok r := by
  rw [gcd_two_polynomials]
  rcases hl : gcdLoop (trimF q).length.succ (trimF p) (trimF q) with e | a
  · exact absurd hl (gcdLoop_ne_error _ _ _ e)
  · dsimp only
    by_cases hc : ¬ a.isEmpty ∧ EPS < |a.getLastD 0|
    · rw [if_pos hc]; exact ⟨_, rfl⟩
    · rw [if_neg hc]; exact ⟨_, rfl⟩

/-! ## The integer gcd -/

theorem gcdNatFuel_eq_gcd (fuel a b : ℕ) (h : b ≤ fuel) :
    gcdNatFuel fuel a b = Nat.gcd b a := by
  induction fuel generalizing a b with
  | zero =>
    have hb : b = 0 := Nat.le_zero.mp h
    simp [gcdNatFuel, hb]
  | succ fuel ih =>
    rw [gcdNatFuel]
    by_cases hb : b = 0
    · simp [hb]
    · have hlt : a % b < b := Nat.mod_lt _ (Nat.pos_of_ne_zero hb)
      rw [if_neg hb, ih b (a % b) (by omega)]
      exact (Nat.gcd_rec b a).symm

theorem gcd_two_integers_eq_gcd (a b : ℤ) : gcd_two_integers a b = Int.gcd a b := by
  rw [gcd_two_integers, gcdNatFuel_eq_gcd _ _ _ (Nat.le_succ _)]
  show ((Nat.gcd b.natAbs a.natAbs : ℕ) : ℤ) = _
  rw [Nat.gcd_comm]
  rfl

/-! ## The fold of `gcd_ring_elements` never raises -/

theorem gcdFoldPoly_ok (acc : List ℚ) (es : List RingData) :
    ∃ r, gcdFoldPoly acc es = .ok r := by
  induction es generalizing acc with
  | nil => exact ⟨acc, rfl⟩
  | cons e rest ih =>
    rcases e with n | l
    · exact ⟨acc, rfl⟩
    · obtain ⟨r, hr⟩ := gcd_two_polynomials_ok acc l
      rw [gcdFoldPoly, hr]
      exact ih r

/-! ## Invariants of the extended-GCD elimination loop -/

/-- A coefficient list is normalized: its last entry, if any, is nonzero. -/
def IsTrim {R : Type} [CommRing R] (l : List R) : Prop :=
  ∀ x, l.getLast? = some x → x ≠ 0

theorem isTrim_nil {R : Type} [CommRing R] : IsTrim ([] : List R) := by
  intro x hx; simp at hx

theorem isTrim_trimZ {R : Type} [CommRing R] [DecidableEq R] (l : List R) :
    IsTrim (trimZ l) := by
  induction l with
  | nil => exact isTrim_nil
  | cons a as ih =>
    rw [trimZ]
    rcases has : trimZ as with _ | ⟨b, bs⟩
    · by_cases ha : a = 0
      · rw [if_pos ha]; exact isTrim_nil
      · rw [if_neg ha]
        intro x hx
        simp at hx
        rw [← hx]; exact ha
    · rw [has] at ih
      intro x hx
      rw [List.getLast?_cons_cons] at hx
      exact ih x hx

theorem isTrim_subZ {R : Type} [CommRing R] [DecidableEq R] (a b : List R) :
    IsTrim (subZ a b) := isTrim_trimZ _

theorem isTrim_shiftP {R : Type} [CommRing R] (k : ℕ) (l : List R)
    (h : IsTrim l) : IsTrim (shiftP k l) := by
  rw [shiftP]
  cases l with
  | nil => simpa using isTrim_nil
  | cons a as =>
    rw [if_neg (by simp)]
    intro x hx
    rw [List.getLast?_append, List.getLast?_eq_getLast (a :: as) (by simp)] at hx
    refine h x ?_
    rw [List.getLast?_eq_getLast (a :: as) (by simp)]
    simpa using hx

/-- All six lists of a loop state are normalized. -/
def AllTrim {n : ℕ} (s : EGState n) : Prop :=
  IsTrim s.1.1 ∧ IsTrim s.1.2.1 ∧ IsTrim s.1.2.2 ∧
  IsTrim s.2.1 ∧ IsTrim s.2.2.1 ∧ IsTrim s.2.2.2

theorem allTrim_tripleSub {n : ℕ} (t u : EGTriple n) :
    IsTrim (tripleSub t u).1 ∧ IsTrim (tripleSub t u).2.1 ∧ IsTrim (tripleSub t u).2.2 :=
  ⟨isTrim_subZ _ _, isTrim_subZ _ _, isTrim_subZ _ _⟩

theorem allTrim_egcdStep {n : ℕ} (s : EGState n) (h : AllTrim s) :
    AllTrim (egcdStep s) := by
  obtain ⟨h1, h2, h3, h4, h5, h6⟩ := h
  rw [egcdStep]
  split_ifs with ha hb hc hd
  · exact ⟨h1, h2, h3, h4, h5, h6⟩
  · exact ⟨isTrim_subZ _ _, isTrim_subZ _ _, isTrim_subZ _ _, h4, h5, h6⟩
  · exact ⟨h1, h2, h3, isTrim_subZ _ _, isTrim_subZ _ _, isTrim_subZ _ _⟩
  · exact ⟨isTrim_subZ _ _, isTrim_subZ _ _, isTrim_subZ _ _, h4, h5, h6⟩
  · exact ⟨h1, h2, h3, isTrim_subZ _ _, isTrim_subZ _ _, isTrim_subZ _ _⟩

theorem allTrim_egcdIter {n : ℕ} (k : ℕ) (s : EGState n) (h : AllTrim s) :
    AllTrim (egcdIter k s) := by
  induction k generalizing s with
  | zero => exact h
  | succ k ih => exact ih _ (allTrim_egcdStep s h)

theorem allTrim_egcdInit {n : ℕ} [Fact (1 < n)] (f g : List (ZMod n)) :
    AllTrim (egcdInit f g) := by
  have h1 : IsTrim ([1] : List (ZMod n)) := by
    intro x hx
    simp only [List.getLast?_singleton, Option.some.injEq] at hx
    rw [← hx]
    exact one_ne_zero
  exact ⟨isTrim_trimZ f, h1, isTrim_nil, isTrim_trimZ g, isTrim_nil, h1⟩

/-- The two remainders are never both zero once they start that way: a step
fires only when both are nonzero and rewrites only one of the two tables. -/
theorem nbz_egcdStep {n : ℕ} (s : EGState n) (h : s.1.1 ≠ [] ∨ s.2.1 ≠ []) :
    (egcdStep s).1.1 ≠ [] ∨ (egcdStep s).2.1 ≠ [] := by
  rw [egcdStep]
  split_ifs with ha hb hc hd
  · exact h
  all_goals push_neg at ha
  · exact Or.inr ha.2
  · exact Or.inl ha.1
  · exact Or.inr ha.2
  · exact Or.inl ha.1

theorem nbz_egcdIter {n : ℕ} (k : ℕ) (s : EGState n)
    (h : s.1.1 ≠ [] ∨ s.2.1 ≠ []) :
    (egcdIter k s).1.1 ≠ [] ∨ (egcdIter k s).2.1 ≠ [] := by
  induction k generalizing s with
  | zero => exact h
  | succ k ih => exact ih _ (nbz_egcdStep s h)

theorem einv_tripleSub {n : ℕ} (f g : List (ZMod n)) (t u : EGTriple n)
    (h1 : EInv f g t) (h2 : EInv f g u) : EInv f g (tripleSub t u) := by
  rw [EInv] at h1 h2 ⊢
  rw [tripleSub]
  simp only [toPoly_subZ]
  linear_combination h1 - h2

theorem einv_tripleShift {n : ℕ} (f g : List (ZMod n)) (k : ℕ) (t : EGTriple n)
    (h : EInv f g t) : EInv f g (tripleShift k t) := by
  rw [EInv] at h ⊢
  rw [tripleShift]
  simp only [toPoly_shiftP]
  linear_combination (Polynomial.X : Polynomial (ZMod n)) ^ k * h

theorem einv_egcdStep {n : ℕ} (f g : List (ZMod n)) (s : EGState n)
    (h1 : EInv f g s.1) (h2 : EInv f g s.2) :
    EInv f g (egcdStep s).1 ∧ EInv f g (egcdStep s).2 := by
  rw [egcdStep]
  split_ifs with ha hb hc hd
  · exact ⟨h1, h2⟩
  · exact ⟨einv_tripleSub f g _ _ h1 (einv_tripleShift f g _ _ h2), h2⟩
  · exact ⟨h1, einv_tripleSub f g _ _ h2 (einv_tripleShift f g _ _ h1)⟩
  · exact ⟨einv_tripleSub f g _ _ h1 h2, h2⟩
  · exact ⟨h1, einv_tripleSub f g _ _ h2 h1⟩

theorem einv_egcdIter {n : ℕ} (f g : List (ZMod n)) (k : ℕ) (s : EGState n)
    (h1 : EInv f g s.1) (h2 : EInv f g s.2) :
    EInv f g (egcdIter k s).1 ∧ EInv f g (egcdIter k s).2 := by
  induction k generalizing s with
  | zero => exact ⟨h1, h2⟩
  | succ k ih =>
    obtain ⟨g1, g2⟩ := einv_egcdStep f g s h1 h2
    exact ih _ g1 g2

theorem einv_egcdInit_left {n : ℕ} (f g : List (ZMod n)) :
    EInv f g (egcdInit f g).1 := by
  rw [EInv, egcdInit]
  show toPoly [(1 : ZMod n)] * toPoly f + toPoly [] * toPoly g = toPoly (trimZ f)
  simp [toPoly_trimZ]

theorem einv_egcdInit_right {n : ℕ} (f g : List (ZMod n)) :
    EInv f g (egcdInit f g).2 := by
  rw [EInv, egcdInit]
  show toPoly [] * toPoly f + toPoly [(1 : ZMod n)] * toPoly g = toPoly (trimZ g)
  simp [toPoly_trimZ]

/-! ## Degree and leading coefficient of a normalized coefficient list -/

theorem toPoly_spec_of_isTrim {K : Type} [Field K] (l : List K) (hne : l ≠ [])
    (ht : IsTrim l) :
    toPoly l ≠ 0 ∧ (toPoly l).degree = ((l.length - 1 : ℕ) : WithBot ℕ) ∧
      (toPoly l).leadingCoeff = l.getLastD 0 := by
  induction l with
  | nil => exact absurd rfl hne
  | cons c tl ih =>
    cases tl with
    | nil =>
      have hc : c ≠ 0 := ht c (by simp)
      have hCc : toPoly [c] = Polynomial.C c := by simp [toPoly]
      refine ⟨by simp [hCc, hc], ?_, by simp [hCc]⟩
      simp [hCc, Polynomial.degree_C hc]
    | cons d tl2 =>
      have htl : IsTrim (d :: tl2) := fun x hx => ht x (by
        rw [List.getLast?_cons_cons]; exact hx)
      obtain ⟨h0, hdeg, hlead⟩ := ih (by simp) htl
      have hlen : (d :: tl2).length - 1 + 1 = (c :: d :: tl2).length - 1 := by
        simp
      have hXdeg : (Polynomial.X * toPoly (d :: tl2)).degree =
          (((c :: d :: tl2).length - 1 : ℕ) : WithBot ℕ) := by
        rw [Polynomial.degree_mul, Polynomial.degree_X, hdeg, ← hlen]
        rw [← Nat.cast_one, ← Nat.cast_add, Nat.add_comm]
      have hlt : (Polynomial.C c).degree < (Polynomial.X * toPoly (d :: tl2)).degree := by
        refine lt_of_le_of_lt Polynomial.degree_C_le ?_
        rw [hXdeg, ← Nat.cast_zero, Nat.cast_lt]
        omega
      refine ⟨?_, ?_, ?_⟩
      · intro hz
        have := Polynomial.degree_eq_bot.mpr hz
        rw [toPoly_cons, Polynomial.degree_add_eq_right_of_degree_lt hlt, hXdeg] at this
        exact (by simp : (((c :: d :: tl2).length - 1 : ℕ) : WithBot ℕ) ≠ ⊥) this
      · rw [toPoly_cons, Polynomial.degree_add_eq_right_of_degree_lt hlt, hXdeg]
      · rw [toPoly_cons, Polynomial.leadingCoeff_add_of_degree_lt hlt,
          Polynomial.leadingCoeff_mul, Polynomial.leadingCoeff_X, one_mul, hlead]
        simp

/-- Remainder uniqueness for field polynomials: adding a multiple of `b` to a
polynomial of degree below `b` does not change the remainder modulo `b`. -/
theorem mod_add_mul_self {K : Type} [Field K] (b r q : Polynomial K) (hb : b ≠ 0)
    (hr : r.degree < b.degree) : (r + q * b) % b = r := by
  have hlc : b.leadingCoeff ≠ 0 := Polynomial.leadingCoeff_ne_zero.mpr hb
  have hmon : (b * Polynomial.C b.leadingCoeff⁻¹).Monic :=
    Polynomial.monic_mul_leadingCoeff_inv hb
  have hdeg : (b * Polynomial.C b.leadingCoeff⁻¹).degree = b.degree :=
    Polynomial.degree_mul_leadingCoeff_inv b hb
  have hCC : Polynomial.C b.leadingCoeff⁻¹ * Polynomial.C b.leadingCoeff = 1 := by
    rw [← Polynomial.C_mul, inv_mul_cancel₀ hlc, Polynomial.C_1]
  have key := Polynomial.div_modByMonic_unique
    (f := r + q * b) (Polynomial.C b.leadingCoeff * q) r hmon ⟨?_, ?_⟩
  · rw [Polynomial.mod_def]
    exact key.2
  · calc r + b * Polynomial.C b.leadingCoeff⁻¹ * (Polynomial.C b.leadingCoeff * q)
        = r + (Polynomial.C b.leadingCoeff⁻¹ * Polynomial.C b.leadingCoeff) * (q * b) := by
          ring
    _ = r + q * b := by rw [hCC, one_mul]
  · rw [hdeg]; exact hr

instance : Fact (Nat.Prime 13) := ⟨by norm_num⟩

/-- Core of the `inverse_F13` correctness: a table satisfying the Bézout
invariant whose remainder is a nonzero scalar yields, after dividing the
coefficient-on-`f` accumulator by that scalar, an inverse of `f` modulo `g`
(for `g` of positive degree). -/
theorem inverse_of_triple (f g : List (ZMod 13)) (t : EGTriple 13)
    (hE : EInv f g t) (ht1 : IsTrim t.1) (hne : t.1 ≠ [])
    (hdeg : degP t.1 = 0) (hgdeg : 1 ≤ degP (trimZ g)) :
    toPoly (t.2.1.map fun c => c * (leadP t.1)⁻¹) * toPoly f % toPoly g = 1 := by
  obtain ⟨c, hc⟩ : ∃ c, t.1 = [c] := by
    rcases hl : t.1 with _ | ⟨c, rest⟩
    · exact absurd hl hne
    · rcases rest with _ | ⟨d, rest2⟩
      · exact ⟨c, rfl⟩
      · rw [hl, degP] at hdeg
        simp at hdeg
  have hc0 : c ≠ 0 := ht1 c (by rw [hc]; simp)
  have hlead : leadP t.1 = c := by rw [hc, leadP]; simp
  have hT1 : toPoly t.1 = Polynomial.C c := by rw [hc]; simp [toPoly]
  have htrg : trimZ g ≠ [] := by
    intro hg0
    rw [hg0, degP] at hgdeg
    simp at hgdeg
  obtain ⟨hGne0, hGdeg0, _⟩ := toPoly_spec_of_isTrim (trimZ g) htrg (isTrim_trimZ g)
  have hGne : toPoly g ≠ 0 := by rw [← toPoly_trimZ]; exact hGne0
  have hGdeg : (toPoly g).degree = (((trimZ g).length - 1 : ℕ) : WithBot ℕ) := by
    rw [← toPoly_trimZ]; exact hGdeg0
  have hdeg1 : (1 : Polynomial (ZMod 13)).degree < (toPoly g).degree := by
    rw [Polynomial.degree_one, hGdeg, ← Nat.cast_zero, Nat.cast_lt]
    rw [degP] at hgdeg
    omega
  have hmap : toPoly (t.2.1.map fun x => x * (leadP t.1)⁻¹) =
      toPoly t.2.1 * Polynomial.C c⁻¹ := by
    rw [hlead]
    exact toPoly_map_mul _ _
  have hCc : Polynomial.C c * Polynomial.C c⁻¹ = (1 : Polynomial (ZMod 13)) := by
    rw [← Polynomial.C_mul, mul_inv_cancel₀ hc0, Polynomial.C_1]
  have hE2 : toPoly t.2.1 * toPoly f = Polynomial.C c - toPoly t.2.2 * toPoly g := by
    rw [← hT1]
    rw [EInv] at hE
    linear_combination hE
  have hrw : toPoly (t.2.1.map fun x => x * (leadP t.1)⁻¹) * toPoly f =
      1 + (-(Polynomial.C c⁻¹ * toPoly t.2.2)) * toPoly g := by
    rw [hmap]
    calc toPoly t.2.1 * Polynomial.C c⁻¹ * toPoly f
        = toPoly t.2.1 * toPoly f * Polynomial.C c⁻¹ := by ring
    _ = (Polynomial.C c - toPoly t.2.2 * toPoly g) * Polynomial.C c⁻¹ := by rw [hE2]
    _ = 1 + (-(Polynomial.C c⁻¹ * toPoly t.2.2)) * toPoly g := by
        linear_combination hCc
  rw [hrw]
  exact mod_add_mul_self (toPoly g) 1 _ hGne hdeg1

/-! ## Claim theorems -/

/-- C2: during the extended-GCD elimination loop over GF(11) (`gcd_F11`), both
tracked tables satisfy `coeff_on_f * f + coeff_on_g * g == remainder` after
every elimination step, and at loop exit the surviving table `(g, s, t)`
satisfies `s*f + t*g == g` exactly. -/
theorem gcd_F11_bezout_invariant (f g : List (ZMod 11)) (k : ℕ) :
    EInv f g (egcdIter k (egcdInit f g)).1 ∧
    EInv f g (egcdIter k (egcdInit f g)).2 ∧
    (egcdTerminated (egcdIter k (egcdInit f g)) →
      toPoly (egcdSurvivor (egcdIter k (egcdInit f g))).2.1 * toPoly f +
        toPoly (egcdSurvivor (egcdIter k (egcdInit f g))).2.2 * toPoly g =
        toPoly (egcdSurvivor (egcdIter k (egcdInit f g))).1) := by
  obtain ⟨h1, h2⟩ := einv_egcdIter f g k (egcdInit f g)
    (einv_egcdInit_left f g) (einv_egcdInit_right f g)
  refine ⟨h1, h2, fun _ => ?_⟩
  rw [egcdSurvivor]
  by_cases hz : (egcdIter k (egcdInit f g)).1.1 = []
  · rw [if_pos hz]; exact h2
  · rw [if_neg hz]; exact h1

/-- C2 witness: at `f = g = 1` the loop reaches a terminal state after one
step and the surviving table satisfies the Bézout identity. -/
theorem gcd_F11_bezout_invariant_witness :
    (egcdIter 1 (egcdInit ([1] : List (ZMod 11)) [1])).1.1 = [] ∧
    toPoly (egcdSurvivor (egcdIter 1 (egcdInit ([1] : List (ZMod 11)) [1]))).2.1 *
        toPoly [(1 : ZMod 11)] +
      toPoly (egcdSurvivor (egcdIter 1 (egcdInit ([1] : List (ZMod 11)) [1]))).2.2 *
        toPoly [(1 : ZMod 11)] =
      toPoly (egcdSurvivor (egcdIter 1 (egcdInit ([1] : List (ZMod 11)) [1]))).1 :=
  ⟨by decide, (gcd_F11_bezout_invariant [1] [1] 1).2.2 (Or.inl (by decide))⟩

/-- C5 (amended: the modulus `g` has positive degree, as the fixed
`g = x^8 + x^4 + x^3 + 6x + 2` of `inverse_F13` does): when the extended-GCD
loop exits, if the surviving remainder (the gcd) has degree 0 the function
returns `h`, the coefficient-on-`f` accumulator divided by that scalar, and
`h*f ≡ 1 (mod g)`; if the gcd has positive degree it returns the
not-invertible answer. -/
theorem inverse_F13_spec (f g : List (ZMod 13)) (fuel : ℕ)
    (hg : 1 ≤ degP (trimZ g))
    (hterm : egcdTerminated (egcdIter fuel (egcdInit f g))) :
    (∀ h, inverse_modulo f g fuel = .ok h →
      h = (egcdSurvivor (egcdIter fuel (egcdInit f g))).2.1.map
            (fun c => c * (leadP (egcdSurvivor (egcdIter fuel (egcdInit f g))).1)⁻¹) ∧
      toPoly h * toPoly f % toPoly g = 1) ∧
    (degP (egcdSurvivor (egcdIter fuel (egcdInit f g))).1 ≠ 0 →
      inverse_modulo f g fuel = .notInvertible) := by
  haveI hFact : Fact (1 < 13) := ⟨by norm_num⟩
  have htrg : trimZ g ≠ [] := by
    intro hg0
    rw [hg0, degP] at hg
    simp at hg
  have hAT := allTrim_egcdIter fuel (egcdInit f g) (allTrim_egcdInit f g)
  have hNBZ := nbz_egcdIter fuel (egcdInit f g) (Or.inr htrg)
  obtain ⟨hE1, hE2⟩ := einv_egcdIter f g fuel (egcdInit f g)
    (einv_egcdInit_left f g) (einv_egcdInit_right f g)
  by_cases hz : (egcdIter fuel (egcdInit f g)).1.1 = []
  · have hs2 : (egcdIter fuel (egcdInit f g)).2.1 ≠ [] := by
      rcases hNBZ with h | h
      · exact absurd hz h
      · exact h
    rw [egcdSurvivor, if_pos hz]
    constructor
    · intro h hok
      simp only [inverse_modulo, if_pos hz] at hok
      by_cases hdeg : degP (egcdIter fuel (egcdInit f g)).2.1 ≠ 0
      · rw [if_pos hdeg] at hok
        cases hok
      · rw [if_neg hdeg] at hok
        push_neg at hdeg
        have hok2 : (egcdIter fuel (egcdInit f g)).2.2.1.map
            (fun c => c * (leadP (egcdIter fuel (egcdInit f g)).2.1)⁻¹) = h := by
          cases hok
          rfl
        refine ⟨hok2.symm, ?_⟩
        rw [← hok2]
        exact inverse_of_triple f g (egcdIter fuel (egcdInit f g)).2 hE2
          hAT.2.2.2.1 hs2 hdeg hg
    · intro hdeg
      simp only [inverse_modulo, if_pos hz, if_pos hdeg]
  · have hs2 : (egcdIter fuel (egcdInit f g)).2.1 = [] := by
      rcases hterm with h | h
      · exact absurd h hz
      · exact h
    rw [egcdSurvivor, if_neg hz]
    constructor
    · intro h hok
      simp only [inverse_modulo, if_neg hz] at hok
      by_cases hdeg : degP (egcdIter fuel (egcdInit f g)).1.1 ≠ 0
      · rw [if_pos hdeg] at hok
        cases hok
      · rw [if_neg hdeg] at hok
        push_neg at hdeg
        have hok2 : (egcdIter fuel (egcdInit f g)).1.2.1.map
            (fun c => c * (leadP (egcdIter fuel (egcdInit f g)).1.1)⁻¹) = h := by
          cases hok
          rfl
        refine ⟨hok2.symm, ?_⟩
        rw [← hok2]
        exact inverse_of_triple f g (egcdIter fuel (egcdInit f g)).1 hE1
          hAT.1 hz hdeg hg
    · intro hdeg
      simp only [inverse_modulo, if_neg hz, if_pos hdeg]

instance {e a : Type} [DecidableEq e] [DecidableEq a] : DecidableEq (Except e a) := fun x y =>
  match x, y with
  | .error e1, .error e2 =>
    if h : e1 = e2 then .isTrue (congrArg Except.error h)
    else .isFalse fun hh => h (Except.error.inj hh)
  | .error _, .ok _ => .isFalse fun hh => Except.noConfusion hh
  | .ok _, .error _ => .isFalse fun hh => Except.noConfusion hh
  | .ok v1, .ok v2 =>
    if h : v1 = v2 then .isTrue (congrArg Except.ok h)
    else .isFalse fun hh => h (Except.ok.inj hh)

/-- C1 (code bug): dividing `x^2 + x^3` by `1 + x` returns quotient `[1]` and
zero remainder, so `divisor * quotient + remainder` is `1 + x`, not the
dividend: when the working dividend becomes (epsilon-)zero while still longer
than the divisor, the loop exits early and the quotient misses its low-degree
positions (here a factor `x^2`).  The remainder-degree half of the claim does
hold on this input (the remainder is zero). -/
theorem polynomial_division_identity_failure :
    polynomial_division [0, 0, 1, 1] [1, 1] = .ok ([1], [0, 0, 0]) ∧
    toPoly ([1, 1] : List ℚ) * toPoly [(1 : ℚ)] + toPoly [(0 : ℚ), 0, 0] ≠
      toPoly [(0 : ℚ), 0, 1, 1] := by
  constructor
  · norm_num [polynomial_division, divLoop, trimF, dropSmall, isEpsZero, EPS]
  · intro hcontra
    have h2 := congrArg (Polynomial.eval 2) hcontra
    simp only [toPoly, Polynomial.eval_add, Polynomial.eval_mul, Polynomial.eval_C,
      Polynomial.eval_X, Polynomial.eval_zero] at h2
    norm_num at h2

/-- C3: the integer gcd routine returns a common divisor of both operands
which, when they are not both zero, is the largest common divisor. -/
theorem gcd_two_integers_spec (a b : ℤ) :
    (gcd_two_integers a b ∣ a ∧ gcd_two_integers a b ∣ b) ∧
    (¬(a = 0 ∧ b = 0) → ∀ d : ℤ, d ∣ a → d ∣ b → d ≤ gcd_two_integers a b) := by
  rw [gcd_two_integers_eq_gcd]
  refine ⟨⟨Int.gcd_dvd_left, Int.gcd_dvd_right⟩, ?_⟩
  intro hab d hda hdb
  refine Int.le_of_dvd ?_ (Int.dvd_gcd hda hdb)
  have hne : Int.gcd a b ≠ 0 := fun h => hab (Int.gcd_eq_zero_iff.mp h)
  exact_mod_cast Nat.pos_of_ne_zero hne

/-- C3 witness at `a = 48`, `b = 18`. -/
theorem gcd_two_integers_spec_witness :
    (gcd_two_integers 48 18 ∣ (48 : ℤ)) ∧ (3 : ℤ) ≤ gcd_two_integers 48 18 :=
  ⟨(gcd_two_integers_spec 48 18).1.1,
   (gcd_two_integers_spec 48 18).2 (by norm_num) 3 (by norm_num) (by norm_num)⟩

/-- C4 counterexample: with first operand the constant polynomial `1e-10`
(not zero by the code's own `is_zero` test, since `|1e-10| < 1e-10` fails) and
second operand zero, the gcd routine returns the working value unnormalized:
the monic-normalization guard demands a leading coefficient strictly above
`EPSILON`, so the result is neither monic nor zero. -/
theorem gcd_two_polynomials_monic_counterexample :
    gcd_two_polynomials [1 / 10 ^ 10] [0] = .ok [1 / 10 ^ 10] ∧
    ([(1 : ℚ) / 10 ^ 10]).getLastD 0 ≠ 1 ∧
    isEpsZero [(1 / 10 ^ 10 : ℚ)] = false := by
  refine ⟨?_, by norm_num, ?_⟩
  · norm_num [gcd_two_polynomials, gcdLoop, polynomial_division, divLoop, trimF,
      dropSmall, isEpsZero, EPS, abs_of_pos]
  · norm_num [isEpsZero, EPS, abs_of_pos]

theorem gcd_two_polynomials_result_shape (p q : List ℚ) :
    ∃ r, gcd_two_polynomials p q = .ok r ∧
      (r.getLastD 0 = 1 ∨ |r.getLastD 0| ≤ EPS) := by
  rw [gcd_two_polynomials]
  rcases hl : gcdLoop (trimF q).length.succ (trimF p) (trimF q) with e | a
  · exact absurd hl (gcdLoop_ne_error _ _ _ e)
  · dsimp only
    by_cases hc : ¬ a.isEmpty ∧ EPS < |a.getLastD 0|
    · rw [if_pos hc]
      refine ⟨_, rfl, Or.inl ?_⟩
      have hne : a ≠ [] := by
        rcases ha : a.isEmpty with _ | _
        · exact List.isEmpty_eq_false.mp ha
        · exact absurd ha hc.1
      have hlc : a.getLastD 0 ≠ 0 := by
        intro h0
        rw [h0] at hc
        have := hc.2
        rw [abs_zero] at this
        exact absurd this (by norm_num [EPS])
      have hlast : a.getLast? = some (a.getLastD 0) := by
        rw [List.getLastD_eq_getLast?]
        cases hx : a.getLast? with
        | none => exact absurd (List.getLast?_eq_none_iff.mp hx) hne
        | some x => rfl
      rw [List.getLastD_eq_getLast?, List.getLast?_map, hlast]
      show a.getLastD 0 / a.getLastD 0 = 1
      exact div_self hlc
    · rw [if_neg hc]
      refine ⟨a, rfl, Or.inr ?_⟩
      by_cases ha : a.isEmpty
      · rw [List.isEmpty_iff.mp ha]
        norm_num [EPS]
      · push_neg at hc
        exact hc ha

/-- C4 (amended): the polynomial gcd iterates `a, b = b, remainder`,
re-normalizing, until `b` is epsilon-zero, and then normalizes `a` to be monic
exactly when the magnitude of its leading coefficient exceeds `EPSILON`
(rather than whenever `a` is nonzero as claimed: the two conditions differ on
a leading coefficient of magnitude exactly `1e-10`); `gcd_of_set` on
`x^2 - 1` and `x^3 - 1` returns the monic `x - 1`. -/
theorem gcd_two_polynomials_spec :
    (∀ p q : List ℚ, ∃ r, gcd_two_polynomials p q = .ok r ∧
       (r.getLastD 0 = 1 ∨ |r.getLastD 0| ≤ EPS)) ∧
    gcd_ring_elements [.poly [-1, 0, 1], .poly [-1, 0, 0, 1]] = .ok (.poly [-1, 1]) := by
  refine ⟨gcd_two_polynomials_result_shape, ?_⟩
  norm_num [gcd_ring_elements, gcdFoldPoly, RingData.isPolynomial, gcd_two_polynomials,
    gcdLoop, polynomial_division, divLoop, trimF, dropSmall, isEpsZero, EPS]

/-- C6: `divide` raises the division-by-zero error exactly when the divisor is
the zero element (all coefficients below tolerance, equivalently so after
trimming), and the polynomial gcd never lets a zero divisor reach `divide`:
its loop stops as soon as the working remainder is zero, so no call of
`_gcd_two_polynomials` raises at all. -/
theorem division_by_zero_spec :
    (∀ p q : List ℚ, polynomial_division p q = .error .divisionByZero ↔
       isEpsZero q = true) ∧
    (∀ p q : List ℚ, ∀ e : EngineError, gcd_two_polynomials p q ≠ .error e) := by
  refine ⟨polynomial_division_error_iff, ?_⟩
  intro p q e
  obtain ⟨r, hr⟩ := gcd_two_polynomials_ok p q
  rw [hr]
  intro h
  cases h

/-- C6 witness: division by the zero polynomial raises; the gcd with a zero
second operand does not. -/
theorem division_by_zero_spec_witness :
    polynomial_division [1] [0] = .error .divisionByZero ∧
    gcd_two_polynomials [1] [0] ≠ .error .divisionByZero :=
  ⟨(division_by_zero_spec.1 [1] [0]).mpr (by norm_num [isEpsZero, EPS]),
   division_by_zero_spec.2 [1] [0] .divisionByZero⟩

theorem mixed_iff_any (e0 : RingData) (rest : List RingData) :
    ((e0 :: rest).any (fun elem => decide (elem.isPolynomial ≠ e0.isPolynomial)) = true) ↔
    (∃ e1, e1 ∈ e0 :: rest ∧ ∃ e2, e2 ∈ e0 :: rest ∧
      e1.isPolynomial ≠ e2.isPolynomial) := by
  rw [List.any_eq_true]
  constructor
  · rintro ⟨x, hx, hxe⟩
    exact ⟨x, hx, e0, List.mem_cons_self e0 rest, by simpa using hxe⟩
  · rintro ⟨x, hx, y, hy, hxy⟩
    by_cases hxe : x.isPolynomial = e0.isPolynomial
    · refine ⟨y, hy, ?_⟩
      simp only [decide_eq_true_eq]
      rw [← hxe]
      exact fun h => hxy h.symm
    · exact ⟨x, hx, by simpa using hxe⟩

/-- C7: `gcd_ring_elements` fails with the type-consistency error exactly when
its input mixes the integer and polynomial variants (all polynomials share the
single coefficient field of `hard_level.py`), and the empty list yields the
zero element without error. -/
theorem gcd_ring_elements_type_spec :
    (∀ es : List RingData, gcd_ring_elements es = .error .typeMismatch ↔
      ∃ e1, e1 ∈ es ∧ ∃ e2, e2 ∈ es ∧ e1.isPolynomial ≠ e2.isPolynomial) ∧
    gcd_ring_elements [] = .ok (.int 0) := by
  refine ⟨?_, rfl⟩
  intro es
  cases es with
  | nil =>
    constructor
    · intro h
      cases h
    · rintro ⟨e1, he1, _⟩
      cases he1
  | cons e0 rest =>
    rw [gcd_ring_elements.eq_def]
    dsimp only
    by_cases hmix :
        (e0 :: rest).any (fun elem => decide (elem.isPolynomial ≠ e0.isPolynomial)) = true
    · rw [if_pos hmix]
      exact iff_of_true rfl ((mixed_iff_any e0 rest).mp hmix)
    · rw [if_neg hmix]
      refine iff_of_false ?_ (fun hex => hmix ((mixed_iff_any e0 rest).mpr hex))
      rcases e0 with n | l
      · intro h
        cases h
      · obtain ⟨r, hr⟩ := gcdFoldPoly_ok l rest
        dsimp only
        rw [hr]
        intro h
        cases h

/-- C7 witness: a mixed integer/polynomial list raises; the empty list yields
the integer zero. -/
theorem gcd_ring_elements_type_spec_witness :
    gcd_ring_elements [.int 1, .poly [1]] = .error .typeMismatch ∧
    gcd_ring_elements [] = .ok (.int 0) :=
  ⟨(gcd_ring_elements_type_spec.1 [.int 1, .poly [1]]).mpr
     ⟨.int 1, by simp, .poly [1], by simp, by simp [RingData.isPolynomial]⟩,
   gcd_ring_elements_type_spec.2⟩

/-- C9: on a one-element list the fold performs no gcd step and no monic
normalization: a (normalized) polynomial element's coefficient list comes back
unchanged — hence non-monic whenever its leading coefficient is not 1 — and an
integer element comes back as its absolute value. -/
theorem gcd_ring_elements_singleton_spec :
    (∀ l : List ℚ, trimF l = l →
      gcd_ring_elements [.poly l] = .ok (.poly l) ∧
      (l.getLastD 0 ≠ 1 →
        ∃ r, gcd_ring_elements [.poly l] = .ok (.poly r) ∧ r.getLastD 0 ≠ 1)) ∧
    (∀ n : ℤ, gcd_ring_elements [.int n] = .ok (.int |n|)) := by
  constructor
  · intro l hl
    have hmain : gcd_ring_elements [.poly l] = .ok (.poly l) := by
      rw [gcd_ring_elements, if_neg (by simp)]
      show Except.ok (RingData.poly (trimF l)) = _
      rw [hl]
    exact ⟨hmain, fun hlc => ⟨l, hmain, hlc⟩⟩
  · intro n
    rw [gcd_ring_elements, if_neg (by simp)]
    rfl

/-- C9 witness: `[2 + 4x]` comes back unchanged (leading coefficient 4, not
monic), `[-5]` comes back as `5`. -/
theorem gcd_ring_elements_singleton_spec_witness :
    gcd_ring_elements [.poly [2, 4]] = .ok (.poly [2, 4]) ∧
    gcd_ring_elements [.int (-5)] = .ok (.int 5) :=
  ⟨(gcd_ring_elements_singleton_spec.1 [2, 4] (by norm_num [trimF, dropSmall, EPS])).1,
   by simpa using gcd_ring_elements_singleton_spec.2 (-5)⟩

/-- C10: the polynomial constructor does not copy: the element stores exactly
the caller's (trimmed-in-place) list, and whenever the list has more than one
entry and its last entry has magnitude below `1e-10`, the caller's list object
is shorter after construction. -/
theorem RingElement_init_poly_spec (l : List ℚ) :
    (RingElement_init_poly l).2 = .poly (RingElement_init_poly l).1 ∧
    (1 < l.length → |l.getLastD 0| < EPS →
      (RingElement_init_poly l).1.length < l.length) :=
  ⟨rfl, fun h1 h2 => trimF_length_lt l h1 h2⟩

/-- C10 witness: constructing from `[1, 1e-11]` leaves the caller's list
shortened. -/
theorem RingElement_init_poly_spec_witness :
    (RingElement_init_poly [1, 1 / 10 ^ 11]).1.length < ([1, (1 : ℚ) / 10 ^ 11]).length :=
  (RingElement_init_poly_spec [1, 1 / 10 ^ 11]).2 (by norm_num)
    (by norm_num [EPS, abs_of_pos])

/-- C5 counterexample: at `f = g = 1` (a degree-0 modulus) the extended-GCD
routine answers with the zero polynomial as "inverse", yet
`(0 * 1) mod 1 = 0 ≠ 1`. -/
theorem inverse_F13_counterexample :
    inverse_modulo [1] [1] 1 = .ok [] ∧
    ¬ (toPoly ([] : List (ZMod 13)) * toPoly [(1 : ZMod 13)] %
        toPoly [(1 : ZMod 13)] = 1) := by
  constructor
  · decide
  · rw [toPoly_nil, zero_mul, Polynomial.mod_def, Polynomial.zero_modByMonic]
    exact fun h => zero_ne_one h

/-- C5 witness: `f = x`, `g = x - 1` over GF(13): the code returns
`h = 2 + 12x` and `h * f ≡ 1 (mod g)`. -/
theorem inverse_F13_spec_witness :
    inverse_modulo [0, 1] [12, 1] 20 = .ok [2, 12] ∧
    toPoly ([2, 12] : List (ZMod 13)) * toPoly [(0 : ZMod 13), 1] %
      toPoly [(12 : ZMod 13), 1] = 1 := by
  have hiter : egcdIter 20 (egcdInit ([0, 1] : List (ZMod 13)) [12, 1]) =
      (([], [12, 1], [0, 12]), ([1], [2, 12], [12, 1])) := by decide
  have hok : inverse_modulo [0, 1] [12, 1] 20 = .ok [2, 12] := by
    simp only [inverse_modulo, hiter]
    norm_num [degP, leadP]
  exact ⟨hok,
    ((inverse_F13_spec [0, 1] [12, 1] 20 (by decide) (by decide)).1 [2, 12] hok).2⟩

/-! ## Frame behavior of the engine entry points

State-passing rendering of Python's mutable lists for the engine calls: each
`..._frame` function returns, next to the computed value, the post-call
contents of the list objects the caller passed in.  `_polynomial_division`
(lines 61–62) and `_gcd_two_polynomials` (lines 99–100) rebind their
parameters to fresh copies (`[element for element in ...]`) before any
mutation, and `gcd_ring_elements` copies `elements[0].data[:]` (line 133) and
only ever hands element data to `_gcd_two_polynomials`; so every argument
object is returned unchanged — in contrast with `RingElement_init_poly`,
which trims the caller's list in place. -/

def polynomial_division_frame (dividend divisor : List ℚ) :
    Except EngineError (List ℚ × List ℚ) × (List ℚ × List ℚ) :=
  (polynomial_division (dividend.map fun element => element)
     (divisor.map fun element => element),
   (dividend, divisor))

def gcd_two_polynomials_frame (poly1 poly2 : List ℚ) :
    Except EngineError (List ℚ) × (List ℚ × List ℚ) :=
  (gcd_two_polynomials (poly1.map fun element => element)
     (poly2.map fun element => element),
   (poly1, poly2))

/-- The fold of `gcd_ring_elements`, threading each element's data through
`gcd_two_polynomials_frame` and collecting the post-call elements. -/
def gcdFoldPolyFrame : List ℚ → List RingData → Except EngineError (List ℚ) × List RingData
  | acc, [] => (.ok acc, [])
  | acc, e :: rest =>
    match e with
    | .int n => (.ok acc, .int n :: rest)
    | .poly l =>
      match (gcd_two_polynomials_frame acc l).1 with
      | .error err => (.error err, .poly (gcd_two_polynomials_frame acc l).2.2 :: rest)
      | .ok acc2 =>
        ((gcdFoldPolyFrame acc2 rest).1,
         .poly (gcd_two_polynomials_frame acc l).2.2 :: (gcdFoldPolyFrame acc2 rest).2)

def gcd_ring_elements_frame (elements : List RingData) :
    Except EngineError RingData × List RingData :=
  match elements with
  | [] => (.ok (.int 0), [])
  | e0 :: rest =>
    if elements.any fun elem => elem.isPolynomial ≠ e0.isPolynomial then
      (.error .typeMismatch, elements)
    else
      match e0 with
      | .poly l =>
        (match (gcdFoldPolyFrame (l.map fun element => element) rest).1 with
         | .error err => .error err
         | .ok r => .ok (.poly (trimF r)),
         .poly l :: (gcdFoldPolyFrame (l.map fun element => element) rest).2)
      | .int n => (.ok (.int (gcdFoldInt |n| rest)), elements)

theorem map_self_eq {A : Type} (l : List A) : (l.map fun element => element) = l := by
  induction l with
  | nil => rfl
  | cons a as ih => rw [List.map_cons, ih]

theorem gcd_two_polynomials_frame_fst (p q : List ℚ) :
    (gcd_two_polynomials_frame p q).1 = gcd_two_polynomials p q := by
  rw [gcd_two_polynomials_frame, map_self_eq, map_self_eq]

theorem gcdFoldPolyFrame_spec (acc : List ℚ) (es : List RingData) :
    (gcdFoldPolyFrame acc es).2 = es ∧
    (gcdFoldPolyFrame acc es).1 = gcdFoldPoly acc es := by
  induction es generalizing acc with
  | nil => exact ⟨rfl, rfl⟩
  | cons e rest ih =>
    rcases e with n | l
    · exact ⟨rfl, rfl⟩
    · rw [gcdFoldPolyFrame.eq_def, gcdFoldPoly.eq_def]
      dsimp only
      rw [gcd_two_polynomials_frame_fst]
      rcases hstep : gcd_two_polynomials acc l with err | acc2
      · exact ⟨rfl, rfl⟩
      · dsimp only
        refine ⟨?_, (ih acc2).2⟩
        rw [(ih acc2).1]
        rfl

/-- C8: no engine call mutates the caller's list objects: the post-call
contents of every argument of `divide`, of the polynomial gcd, and of every
element handed to `gcd_ring_elements` equal the pre-call contents, and the
frame-tracking versions compute the same results as the plain ones. -/
theorem engine_frame_spec (dividend divisor poly1 poly2 : List ℚ)
    (elements : List RingData) :
    (polynomial_division_frame dividend divisor).2 = (dividend, divisor) ∧
    (gcd_two_polynomials_frame poly1 poly2).2 = (poly1, poly2) ∧
    (gcd_ring_elements_frame elements).2 = elements ∧
    (gcd_ring_elements_frame elements).1 = gcd_ring_elements elements := by
  refine ⟨rfl, rfl, ?_⟩
  cases elements with
  | nil => exact ⟨rfl, rfl⟩
  | cons e0 rest =>
    rw [gcd_ring_elements_frame.eq_def, gcd_ring_elements.eq_def]
    dsimp only
    by_cases hmix :
        (e0 :: rest).any (fun elem => decide (elem.isPolynomial ≠ e0.isPolynomial)) = true
    · rw [if_pos hmix, if_pos hmix]
      exact ⟨rfl, rfl⟩
    · rw [if_neg hmix, if_neg hmix]
      rcases e0 with n | l
      · exact ⟨rfl, rfl⟩
      · dsimp only
        rw [map_self_eq]
        obtain ⟨hpost, hfst⟩ := gcdFoldPolyFrame_spec l rest
        exact ⟨by rw [hpost], by rw [hfst]⟩

/-- C8 witness instance on concrete arguments. -/
theorem engine_frame_spec_witness :
    (gcd_two_polynomials_frame [2, 4] [0, 2]).2 = ([2, 4], [0, 2]) ∧
    (gcd_ring_elements_frame [.poly [2, 4], .poly [0, 2]]).2 =
      [.poly [2, 4], .poly [0, 2]] :=
  ⟨(engine_frame_spec [] [] [2, 4] [0, 2] [.poly [2, 4], .poly [0, 2]]).2.1,
   (engine_frame_spec [] [] [2, 4] [0, 2] [.poly [2, 4], .poly [0, 2]]).2.2.1⟩

end LinalLab
